import Mathlib

/- Verification of the OmniConvert conversion pipeline (src/App.tsx,
   src/types.ts, src/services/geminiService.ts) against its natural-language
   specification.  Strings are modelled as lists of characters; each
   JavaScript regular-expression replacement from the source is modelled by a
   recursive scanning function translated from the concrete regex literal. -/

/-- Case-insensitive prefix test: does the literal pattern match (JavaScript
regex flag i, via Char.toLower) at the head of the input? -/
def ciPre : List Char → List Char → Bool
  | [], _ => true
  | _ :: _, [] => false
  | p :: ps, c :: cs => (c.toLower == p.toLower) && ciPre ps cs

/-- JavaScript String.replace with a global case-insensitive literal pattern
(the nonempty list p :: ps) and replacement repl: scan left to right,
replace non-overlapping matches, continue scanning after the replacement
(models the gi-flagged literal replaces in startConversion, src/App.tsx). -/
def replCI (p : Char) (ps : List Char) (repl : List Char) : List Char → List Char
  | [] => []
  | c :: cs =>
    if ciPre (p :: ps) (c :: cs) then repl ++ replCI p ps repl (List.drop ps.length cs)
    else c :: replCI p ps repl cs
termination_by s => s.length
decreasing_by
  all_goals simp [List.length_drop]
  omega

/-- Fuel-indexed copy of replCI, used only to evaluate it on concrete
inputs by kernel reduction. -/
def replCIFuel : ℕ → Char → List Char → List Char → List Char → List Char
  | 0, _, _, _, s => s
  | _ + 1, _, _, _, [] => []
  | n + 1, p, ps, repl, c :: cs =>
    if ciPre (p :: ps) (c :: cs) then repl ++ replCIFuel n p ps repl (List.drop ps.length cs)
    else c :: replCIFuel n p ps repl cs

/-- Matcher for the tail of the pattern <br\s*\/?> after the literal "<br"
(src/App.tsx line 131): whitespace, an optional slash, then a closing angle
bracket.  Returns the number of characters consumed. -/
def brTailLen : List Char → Option ℕ
  | [] => none
  | c :: cs =>
    if c = '>' then some 1
    else if c = '/' then
      match cs with
      | '>' :: _ => some 2
      | _ => none
    else if c.isWhitespace then
      match brTailLen cs with
      | some k => some (k + 1)
      | none => none
    else none

/-- JavaScript htmlContent.replace(/<br\s*\/?>/gi, '\n') (src/App.tsx). -/
def replBr : List Char → List Char
  | [] => []
  | c :: cs =>
    if ciPre ['<', 'b', 'r'] (c :: cs) then
      match brTailLen (List.drop 2 cs) with
      | some k => '\n' :: replBr (List.drop (2 + k) cs)
      | none => c :: replBr cs
    else c :: replBr cs
termination_by s => s.length
decreasing_by
  all_goals simp [List.length_drop]
  omega

/-- Fuel-indexed copy of replBr for concrete evaluation. -/
def replBrFuel : ℕ → List Char → List Char
  | 0, s => s
  | _ + 1, [] => []
  | n + 1, c :: cs =>
    if ciPre ['<', 'b', 'r'] (c :: cs) then
      match brTailLen (List.drop 2 cs) with
      | some k => '\n' :: replBrFuel n (List.drop (2 + k) cs)
      | none => c :: replBrFuel n cs
    else c :: replBrFuel n cs

/-- Scan to the first closing angle bracket, inclusive; returns the number of
characters consumed.  Used for the catch-all tag pattern <[^>]+>. -/
def tagScan : List Char → Option ℕ
  | [] => none
  | c :: cs =>
    if c = '>' then some 1
    else
      match tagScan cs with
      | some k => some (k + 1)
      | none => none

/-- If the catch-all pattern <[^>]+> (src/App.tsx lines 135 and 143) matches
at the head of the input, the total length of the match: an opening angle
bracket, at least one non-closing character, then the first closing angle
bracket. -/
def tagLen1 : List Char → Option ℕ
  | c :: d :: rest =>
    if c = '<' then
      if d = '>' then none else (tagScan (d :: rest)).map (· + 1)
    else none
  | _ => none

/-- JavaScript .replace(/<[^>]+>/g, ''): strip every complete tag. -/
def stripTags : List Char → List Char
  | [] => []
  | c :: cs =>
    match tagLen1 (c :: cs) with
    | some k => stripTags (List.drop (k - 1) cs)
    | none => c :: stripTags cs
termination_by s => s.length
decreasing_by
  all_goals simp [List.length_drop]
  omega

/-- Fuel-indexed copy of stripTags for concrete evaluation. -/
def stripTagsFuel : ℕ → List Char → List Char
  | 0, s => s
  | _ + 1, [] => []
  | n + 1, c :: cs =>
    match tagLen1 (c :: cs) with
    | some k => stripTagsFuel n (List.drop (k - 1) cs)
    | none => c :: stripTagsFuel n cs

/-- Does the string contain a complete tag, i.e. a match of <[^>]+>? -/
def hasTag : List Char → Bool
  | [] => false
  | c :: cs => (tagLen1 (c :: cs)).isSome || hasTag cs

/-- JavaScript String.trim, restricted to ASCII whitespace. -/
def trimChars (s : List Char) : List Char :=
  ((s.dropWhile Char.isWhitespace).reverse.dropWhile Char.isWhitespace).reverse

/-- The Markdown encoder (src/App.tsx lines 124-136): the fixed ordered
substitution sequence h1, /h1, h2, /h2, p, /p, br, li, /li applied to the
HTML fragment, followed by the catch-all strip of any remaining tag. -/
def mdEncodeL (s : List Char) : List Char :=
  let s1 := replCI '<' "h1>".data "# ".data s
  let s2 := replCI '<' "/h1>".data "\n\n".data s1
  let s3 := replCI '<' "h2>".data "## ".data s2
  let s4 := replCI '<' "/h2>".data "\n\n".data s3
  let s5 := replCI '<' "p>".data [] s4
  let s6 := replCI '<' "/p>".data "\n\n".data s5
  let s7 := replBr s6
  let s8 := replCI '<' "li>".data "* ".data s7
  let s9 := replCI '<' "/li>".data "\n".data s8
  stripTags s9

/-- The Plain-Text encoder (src/App.tsx lines 138-144): br and closing p
collapsed to newlines, remaining tags stripped, result trimmed. -/
def txtEncodeL (s : List Char) : List Char :=
  let s1 := replBr s
  let s2 := replCI '<' "/p>".data "\n".data s1
  let s3 := stripTags s2
  trimChars s3

/-- Modelled from the claim for comparison: stripping the markdown syntax
'# ', '## ', '* ' that the Markdown encoder introduces (applied to the
Markdown output before comparing it with the Plain-Text output). -/
def stripMdSyntax (s : List Char) : List Char :=
  replCI '*' " ".data [] (replCI '#' " ".data [] (replCI '#' "# ".data [] s))

/-- Modelled from the claim for comparison: removing header markers from the
Plain-Text output. -/
def stripHdrMarkers (s : List Char) : List Char :=
  replCI '#' " ".data [] (replCI '#' "# ".data [] s)

/-- The nodes of a well-formed ReconstructedContent fragment: tag-free text
and the allowlisted tags h1, h2, p, br, ul, li, strong (canonical lowercase
spelling, self-closing br as produced by the extractor contract). -/
inductive Node where
  | text (t : List Char)
  | h1o | h1c | h2o | h2c | po | pc | br | ulo | ulc | lio | lic | sgo | sgc
deriving DecidableEq, Repr

/-- Source string of each node. -/
def origVal : Node → List Char
  | .text t => t
  | .h1o => "<h1>".data
  | .h1c => "</h1>".data
  | .h2o => "<h2>".data
  | .h2c => "</h2>".data
  | .po => "<p>".data
  | .pc => "</p>".data
  | .br => "<br/>".data
  | .ulo => "<ul>".data
  | .ulc => "</ul>".data
  | .lio => "<li>".data
  | .lic => "</li>".data
  | .sgo => "<strong>".data
  | .sgc => "</strong>".data

/-- A fragment is the concatenation of its nodes' source strings. -/
def fragChars (ns : List Node) : List Char := (ns.map origVal).flatten

/-- Well-formedness: text chunks contain no angle bracket. -/
def wfNode : Node → Bool
  | .text t => t.all (fun c => c != '<' && c != '>')
  | _ => true

/-- A fragment uses only the allowlisted tags and tag-free text. -/
def wfFrag (ns : List Node) : Bool := ns.all wfNode

/-- What the Markdown encoder turns each node into. -/
def mdVal : Node → List Char
  | .text t => t
  | .h1o => "# ".data
  | .h1c => "\n\n".data
  | .h2o => "## ".data
  | .h2c => "\n\n".data
  | .po => []
  | .pc => "\n\n".data
  | .br => "\n".data
  | .ulo => []
  | .ulc => []
  | .lio => "* ".data
  | .lic => "\n".data
  | .sgo => []
  | .sgc => []

/-- The pass of the Markdown pipeline that rewrites each node
(0 = untouched text, 10 = the final catch-all strip). -/
def mdRank : Node → ℕ
  | .text _ => 0
  | .h1o => 1
  | .h1c => 2
  | .h2o => 3
  | .h2c => 4
  | .po => 5
  | .pc => 6
  | .br => 7
  | .lio => 8
  | .lic => 9
  | .ulo => 10
  | .ulc => 10
  | .sgo => 10
  | .sgc => 10

/-- Node strings after the first k-1 passes of the Markdown pipeline. -/
def mdStage (k : ℕ) (n : Node) : List Char :=
  if mdRank n < k then mdVal n else origVal n

/-- What the Plain-Text encoder turns each node into. -/
def txtVal : Node → List Char
  | .text t => t
  | .br => "\n".data
  | .pc => "\n".data
  | _ => []

/-- The pass of the Plain-Text pipeline that rewrites each node. -/
def txtRank : Node → ℕ
  | .text _ => 0
  | .br => 1
  | .pc => 2
  | _ => 3

/-- Node strings after the first k-1 passes of the Plain-Text pipeline. -/
def txtStage (k : ℕ) (n : Node) : List Char :=
  if txtRank n < k then txtVal n else origVal n

/-- Definite failure of a case-insensitive pattern within the given prefix:
if true, the pattern matches at no extension of this prefix. -/
def ciStop : List Char → List Char → Bool
  | _, [] => false
  | [], _ => false
  | p :: ps, c :: cs => !(c.toLower == p.toLower) || ciStop ps cs

/-- Content characters: everything except whitespace and the markdown
marker characters. -/
def keepChar (c : Char) : Bool := !(c.isWhitespace || c == '#' || c == '*')

/-- The thirteen allowlisted tag tokens (every non-text node). -/
def tagNodes : List Node :=
  [.h1o, .h1c, .h2o, .h2c, .po, .pc, .br, .ulo, .ulc, .lio, .lic, .sgo, .sgc]

/-- One piece of a concatenation passing through replCI with pattern
'<' :: ps: either the pattern matches the piece exactly and it is replaced,
or the piece has no angle bracket at all and is copied, or the pattern
definitely fails at the piece head, no other position of the piece starts
with an angle bracket, and the piece is copied. -/
abbrev PieceCase (ps repl a b : List Char) : Prop :=
  (ciPre ('<' :: ps) a = true ∧ a.length = ps.length + 1 ∧ b = repl)
  ∨ ((∀ c ∈ a, c ≠ '<') ∧ b = a)
  ∨ (ciStop ('<' :: ps) a = true ∧ (∀ c ∈ a.tail, c ≠ '<') ∧ b = a)

/-- One piece of a concatenation passing through replBr: either the piece is
the canonical br tag and becomes a newline, or it has no angle bracket, or
the pattern <br definitely fails at its head and only its head can start a
match. -/
abbrev BrPieceCase (a b : List Char) : Prop :=
  (a = "<br/>".data ∧ b = "\n".data)
  ∨ ((∀ c ∈ a, c ≠ '<') ∧ b = a)
  ∨ (ciStop ['<', 'b', 'r'] a = true ∧ (∀ c ∈ a.tail, c ≠ '<') ∧ b = a)

/-- One piece of a concatenation passing through stripTags: either the piece
is one complete tag and is removed, or it has no angle bracket and is
copied. -/
abbrev TagPieceCase (a b : List Char) : Prop :=
  (tagLen1 a = some a.length ∧ b = [])
  ∨ ((∀ c ∈ a, c ≠ '<') ∧ b = a)

/-- The PDF pagination loop of startConversion (src/App.tsx lines 88-98):
heightLeft starts at the proportional surface height, one page is always
emitted up front, and while (heightLeft >= 0) holds an extra page is added
and heightLeft is reduced by the page height.  extraPages counts the loop
iterations.  The 0 < P conjunct in the guard records that the loop is only
run with the positive A4 page height (297mm), where it terminates; for
non-positive P the source loop would not terminate. -/
def extraPages (P heightLeft : ℚ) : ℕ :=
  if h : 0 < P ∧ 0 ≤ heightLeft then extraPages P (heightLeft - P) + 1 else 0
termination_by (⌊heightLeft / P⌋ + 1).toNat
decreasing_by
  have hP : 0 < P := h.1
  have hH : 0 ≤ heightLeft := h.2
  have h1 : (heightLeft - P) / P = heightLeft / P - 1 := by
    rw [sub_div, div_self hP.ne']
  have h2 : ⌊heightLeft / P - (1 : ℚ)⌋ = ⌊heightLeft / P⌋ - 1 := by
    exact_mod_cast Int.floor_sub_int (heightLeft / P) 1
  have h3 : (0 : ℤ) ≤ ⌊heightLeft / P⌋ := Int.floor_nonneg.mpr (div_nonneg hH hP.le)
  rw [h1, h2]
  omega

/-- Total number of PDF pages produced for a rendered surface of
proportional height H and page height P: the initial page plus the pages
added by the while loop, whose counter starts at H - P. -/
def pdfPages (H P : ℚ) : ℕ := 1 + extraPages P (H - P)

/-- JavaScript String.split with a single-character separator:
"a.b".split(".") gives ["a","b"], "".split(".") gives [""]. -/
def jsSplit (sep : Char) : List Char → List (List Char)
  | [] => [[]]
  | c :: cs =>
    if c = sep then [] :: jsSplit sep cs
    else
      match jsSplit sep cs with
      | [] => [[c]]
      | h :: t => (c :: h) :: t

/-- The TargetFormat enumeration (src/types.ts). -/
inductive FileFormat where
  | PDF | DOCX | TXT | JPG | PNG | MD
deriving DecidableEq, Repr

/-- Display names of the six target formats (FORMATS, src/App.tsx). -/
def fmtName : FileFormat → String
  | .PDF => "PDF"
  | .DOCX => "DOCX"
  | .TXT => "TXT"
  | .JPG => "JPG"
  | .PNG => "PNG"
  | .MD => "MD"

/-- JavaScript String.toLowerCase, via Char.toLower. -/
def lowerStr (s : String) : String := String.mk (s.data.map Char.toLower)

/-- Suggested result file name (src/App.tsx lines 54-55):
file.name.split('.')[0] + '.' + targetFormat.toLowerCase(). -/
def resultNameOf (name : String) (fmt : FileFormat) : String :=
  String.mk ((jsSplit '.' name.data).headD []) ++ "." ++ lowerStr (fmtName fmt)

/-- Modelled from the spec: "the base name is derived from the source file
name with its extension replaced by the target format's lowercase
extension" - the (final) extension is removed from the name, then '.' and
the lowercase target extension are appended. -/
def specResultName (name : String) (fmt : FileFormat) : String :=
  let base :=
    if name.data.contains '.' then
      name.data.take (name.data.length - 1 - (name.data.reverse.takeWhile (· != '.')).length)
    else name.data
  String.mk base ++ "." ++ lowerStr (fmtName fmt)

/-- Office-HTML (DOCX) envelope, the part of the template literal at
src/App.tsx lines 107-122 before the interpolated fragment. -/
def docxPre : String :=
  "\n          <html xmlns:o=\x27urn:schemas-microsoft-com:office:office\x27 xmlns:w=\x27urn:schemas-microsoft-com:office:word\x27 xmlns=\x27http://www.w3.org/TR/REC-html40\x27>\n          <head>\n            <meta charset=\"utf-8\">\n            <title>Converted Document</title>\n            <!--[if gte mso 9]>\n            <xml><w:WordDocument><w:View>Print</w:View><w:Zoom>100</w:Zoom></w:WordDocument></xml>\n            <![endif]-->\n            <style>\n              body \x7b font-family: \x27Calibri\x27, \x27Arial\x27, sans-serif; font-size: 11pt; \x7d\n              p \x7b margin-bottom: 8pt; line-height: 1.2; \x7d\n            </style>\n          </head>\n          <body>"

/-- Office-HTML (DOCX) envelope, the part after the interpolated fragment. -/
def docxPost : String := "</body>\n          </html>"

/-- The DOCX payload (src/App.tsx lines 106-123): a byte-order mark, then
the Office-HTML envelope with the reconstructed fragment embedded verbatim
between <body> and </body>.  No stripping is applied to the fragment. -/
def docxEncodeL (h : List Char) : List Char :=
  '\uFEFF' :: (docxPre.data ++ h ++ docxPost.data)

/-- Rejection message shown for legacy .doc files (src/App.tsx line 26). -/
def docGuidance : String := "不支持旧版 .doc 格式，请另存为 .docx 格式后再试。"

/-- Generic fallback error message (src/App.tsx line 158). -/
def fallbackMsg : String := "文件处理超时。请尝试更小的文件或刷新页面。"

/-- selectedFile.name.toLowerCase().endsWith('.doc') (src/App.tsx line 22). -/
def endsWithDoc (name : String) : Bool :=
  List.isSuffixOf ".doc".data (name.data.map Char.toLower)

/-- The four values of ConversionState.status reachable in src/App.tsx
('uploading' is declared in src/types.ts but never assigned). -/
inductive Status where
  | idle | converting | completed | error
deriving DecidableEq, Repr

/-- The ConversionState record of src/types.ts: result URLs are modelled as
natural-number tokens handed out by URL.createObjectURL in creation order. -/
structure ConvState where
  status : Status
  progress : ℕ
  errorMsg : Option String
  resultUrl : Option ℕ
  resultName : Option String
deriving DecidableEq, Repr

/-- The session state of the App component together with the modelled
browser environment: file is the selected SourceDocument's name, pending is
the in-flight conversion attempt (the closure's captured file name and
target format - a reset does not cancel it), liveUrls is the list of object
URLs created and not yet revoked, nextUrl the next fresh URL token, and
extracted the log of file names passed to the Content Extractor.  The
preview HTML and drag state are presentational and not modelled. -/
structure AppState where
  file : Option String
  target : FileFormat
  conv : ConvState
  pending : Option (String × FileFormat)
  liveUrls : List ℕ
  nextUrl : ℕ
  extracted : List String
deriving DecidableEq, Repr

/-- The events of one session: file selection (handleFiles), target format
selection, the synchronous beginning of startConversion, the asynchronous
resolution of the in-flight attempt (success or caught failure), and reset. -/
inductive Ev where
  | select (name : String)
  | selectFormat (fmt : FileFormat)
  | start
  | finishOk
  | finishFail (msg : Option String)
  | reset
deriving DecidableEq, Repr

/-- handleFiles (src/App.tsx lines 18-42): a name ending (case-insensitively)
in .doc sets an error state with the guidance message and stores nothing;
otherwise the file is stored and the conversion state reset to idle.  In
neither branch is any previously created object URL revoked. -/
def stepSelect (s : AppState) (name : String) : AppState :=
  if endsWithDoc name then
    { s with conv := { status := .error, progress := 0, errorMsg := some docGuidance,
                       resultUrl := none, resultName := none } }
  else
    { s with file := some name,
             conv := { status := .idle, progress := 0, errorMsg := none,
                       resultUrl := none, resultName := none } }

/-- Target format buttons (src/App.tsx): disabled while converting or
completed, otherwise they set the target format. -/
def stepSelectFormat (s : AppState) (fmt : FileFormat) : AppState :=
  if s.conv.status = .converting ∨ s.conv.status = .completed then s
  else { s with target := fmt }

/-- The synchronous prefix of startConversion (src/App.tsx lines 44-51):
no-op without a file; otherwise status converting, the extractor is invoked
with the file, and the closure captures the file name and target format. -/
def stepStart (s : AppState) : AppState :=
  match s.file with
  | none => s
  | some n =>
    { s with conv := { status := .converting, progress := 10, errorMsg := none,
                       resultUrl := none, resultName := none },
             pending := some (n, s.target),
             extracted := s.extracted ++ [n] }

/-- Successful resolution of the in-flight attempt (src/App.tsx lines
147-152): a fresh object URL is created and the completed state is written
unconditionally - nothing compares the attempt to the current session state,
and no previous URL is revoked. -/
def stepFinishOk (s : AppState) : AppState :=
  match s.pending with
  | none => s
  | some (n, fmt) =>
    { s with conv := { status := .completed, progress := 100, errorMsg := none,
                       resultUrl := some s.nextUrl,
                       resultName := some (resultNameOf n fmt) },
             liveUrls := s.liveUrls ++ [s.nextUrl],
             nextUrl := s.nextUrl + 1,
             pending := none }

/-- err.message || fallback (src/App.tsx line 158): JavaScript falsiness
makes both a missing and an empty message fall back. -/
def errShown : Option String → String
  | none => fallbackMsg
  | some m => if m = "" then fallbackMsg else m

/-- The catch block of startConversion (src/App.tsx lines 153-160): the
caught failure is written as a terminal error state with no result fields. -/
def stepFinishFail (s : AppState) (m : Option String) : AppState :=
  match s.pending with
  | none => s
  | some _ =>
    { s with conv := { status := .error, progress := 0, errorMsg := some (errShown m),
                       resultUrl := none, resultName := none },
             pending := none }

/-- reset (src/App.tsx lines 163-168): revokes the held result URL if any,
clears the file and returns to idle.  The in-flight attempt, if any, is not
cancelled. -/
def stepReset (s : AppState) : AppState :=
  { s with file := none,
           conv := { status := .idle, progress := 0, errorMsg := none,
                     resultUrl := none, resultName := none },
           liveUrls :=
             match s.conv.resultUrl with
             | some u => s.liveUrls.erase u
             | none => s.liveUrls }

/-- One event step of the session. -/
def step (s : AppState) : Ev → AppState
  | .select n => stepSelect s n
  | .selectFormat f => stepSelectFormat s f
  | .start => stepStart s
  | .finishOk => stepFinishOk s
  | .finishFail m => stepFinishFail s m
  | .reset => stepReset s

/-- Initial session state (src/App.tsx lines 9-12). -/
def initState : AppState :=
  { file := none, target := .PDF,
    conv := { status := .idle, progress := 0, errorMsg := none,
              resultUrl := none, resultName := none },
    pending := none, liveUrls := [], nextUrl := 0, extracted := [] }

/-- Run a session from the initial state. -/
def run (evs : List Ev) : AppState := evs.foldl step initState

theorem replCI_eq_fuel (n : ℕ) (p : Char) (ps repl : List Char) :
    ∀ s : List Char, s.length ≤ n → replCI p ps repl s = replCIFuel n p ps repl s := by
  induction n with
  | zero =>
    intro s hs
    have : s = [] := List.length_eq_zero.mp (Nat.le_zero.mp hs)
    subst this
    simp [replCI, replCIFuel]
  | succ n ih =>
    intro s hs
    match s with
    | [] => simp [replCI, replCIFuel]
    | c :: cs =>
      simp only [List.length_cons] at hs
      rw [replCI, replCIFuel]
      by_cases h : ciPre (p :: ps) (c :: cs) = true
      · rw [if_pos h, if_pos h, ih _ (by rw [List.length_drop]; omega)]
      · rw [if_neg h, if_neg h, ih _ (by omega)]

theorem replBr_eq_fuel (n : ℕ) :
    ∀ s : List Char, s.length ≤ n → replBr s = replBrFuel n s := by
  induction n with
  | zero =>
    intro s hs
    have : s = [] := List.length_eq_zero.mp (Nat.le_zero.mp hs)
    subst this
    simp [replBr, replBrFuel]
  | succ n ih =>
    intro s hs
    match s with
    | [] => simp [replBr, replBrFuel]
    | c :: cs =>
      simp only [List.length_cons] at hs
      rw [replBr, replBrFuel]
      by_cases h : ciPre ['<', 'b', 'r'] (c :: cs) = true
      · rw [if_pos h, if_pos h]
        cases hk : brTailLen (List.drop 2 cs) with
        | some k =>
          dsimp only
          rw [ih _ (by rw [List.length_drop]; omega)]
        | none =>
          dsimp only
          rw [ih _ (by omega)]
      · rw [if_neg h, if_neg h, ih _ (by omega)]

theorem stripTags_eq_fuel (n : ℕ) :
    ∀ s : List Char, s.length ≤ n → stripTags s = stripTagsFuel n s := by
  induction n with
  | zero =>
    intro s hs
    have : s = [] := List.length_eq_zero.mp (Nat.le_zero.mp hs)
    subst this
    simp [stripTags, stripTagsFuel]
  | succ n ih =>
    intro s hs
    match s with
    | [] => simp [stripTags, stripTagsFuel]
    | c :: cs =>
      simp only [List.length_cons] at hs
      rw [stripTags, stripTagsFuel]
      cases hk : tagLen1 (c :: cs) with
      | some k =>
        dsimp only
        rw [ih _ (by rw [List.length_drop]; omega)]
      | none =>
        dsimp only
        rw [ih _ (by omega)]

/-- Claim C2: the Markdown encoder (definitionally the ordered substitution
sequence h1 open, h1 close, h2 open, h2 close, p open, p close, br, li open,
li close, then the catch-all tag strip - see mdEncodeL) maps the scenario
fragment to "# Title", a blank line, then "Line one", a newline, "Line two",
with the trailing blank line from the closing p substitution. -/
theorem C2_md_scenario : mdEncodeL "<h1>Title</h1><p>Line one<br/>Line two</p>".data
    = "# Title\n\nLine one\nLine two\n\n".data := by
  have h1 : replCI '<' "h1>".data "# ".data "<h1>Title</h1><p>Line one<br/>Line two</p>".data
      = "# Title</h1><p>Line one<br/>Line two</p>".data := by
    rw [replCI_eq_fuel 100 _ _ _ _ (by decide)]; decide
  have h2 : replCI '<' "/h1>".data "\n\n".data "# Title</h1><p>Line one<br/>Line two</p>".data
      = "# Title\n\n<p>Line one<br/>Line two</p>".data := by
    rw [replCI_eq_fuel 100 _ _ _ _ (by decide)]; decide
  have h3 : replCI '<' "h2>".data "## ".data "# Title\n\n<p>Line one<br/>Line two</p>".data
      = "# Title\n\n<p>Line one<br/>Line two</p>".data := by
    rw [replCI_eq_fuel 100 _ _ _ _ (by decide)]; decide
  have h4 : replCI '<' "/h2>".data "\n\n".data "# Title\n\n<p>Line one<br/>Line two</p>".data
      = "# Title\n\n<p>Line one<br/>Line two</p>".data := by
    rw [replCI_eq_fuel 100 _ _ _ _ (by decide)]; decide
  have h5 : replCI '<' "p>".data [] "# Title\n\n<p>Line one<br/>Line two</p>".data
      = "# Title\n\nLine one<br/>Line two</p>".data := by
    rw [replCI_eq_fuel 100 _ _ _ _ (by decide)]; decide
  have h6 : replCI '<' "/p>".data "\n\n".data "# Title\n\nLine one<br/>Line two</p>".data
      = "# Title\n\nLine one<br/>Line two\n\n".data := by
    rw [replCI_eq_fuel 100 _ _ _ _ (by decide)]; decide
  have h7 : replBr "# Title\n\nLine one<br/>Line two\n\n".data
      = "# Title\n\nLine one\nLine two\n\n".data := by
    rw [replBr_eq_fuel 100 _ (by decide)]; decide
  have h8 : replCI '<' "li>".data "* ".data "# Title\n\nLine one\nLine two\n\n".data
      = "# Title\n\nLine one\nLine two\n\n".data := by
    rw [replCI_eq_fuel 100 _ _ _ _ (by decide)]; decide
  have h9 : replCI '<' "/li>".data "\n".data "# Title\n\nLine one\nLine two\n\n".data
      = "# Title\n\nLine one\nLine two\n\n".data := by
    rw [replCI_eq_fuel 100 _ _ _ _ (by decide)]; decide
  have h10 : stripTags "# Title\n\nLine one\nLine two\n\n".data
      = "# Title\n\nLine one\nLine two\n\n".data := by
    rw [stripTags_eq_fuel 100 _ (by decide)]; decide
  simp only [mdEncodeL]
  rw [h1, h2, h3, h4, h5, h6, h7, h8, h9, h10]

theorem extraPages_closed (P hl : ℚ) : 0 < P → extraPages P hl = (⌊hl / P⌋ + 1).toNat := by
  induction hl using extraPages.induct P with
  | case1 hl h ih =>
    intro hP
    rw [extraPages, dif_pos h, ih hP]
    have h1 : (hl - P) / P = hl / P - 1 := by rw [sub_div, div_self hP.ne']
    have h2 : ⌊hl / P - (1 : ℚ)⌋ = ⌊hl / P⌋ - 1 := by
      exact_mod_cast Int.floor_sub_int (hl / P) 1
    have h3 : (0 : ℤ) ≤ ⌊hl / P⌋ := Int.floor_nonneg.mpr (div_nonneg h.2 h.1.le)
    rw [h1, h2]
    omega
  | case2 hl h =>
    intro hP
    rw [extraPages, dif_neg h]
    have hneg : hl < 0 := by
      by_contra hc
      push_neg at hc
      exact h ⟨hP, hc⟩
    have h4 : ⌊hl / P⌋ < 0 := by
      have hq : hl / P < 0 := div_neg_of_neg_of_pos hneg hP
      exact Int.floor_lt.mpr (by exact_mod_cast hq)
    omega

theorem jsSplit_ne_nil (sep : Char) (s : List Char) : jsSplit sep s ≠ [] := by
  induction s with
  | nil => simp [jsSplit]
  | cons c cs ih =>
    rw [jsSplit]
    by_cases h : c = sep
    · simp [h]
    · simp only [h, if_false]
      cases hsp : jsSplit sep cs <;> simp

theorem jsSplit_head (sep : Char) (s : List Char) :
    (jsSplit sep s).headD [] = s.takeWhile (fun c => c != sep) := by
  induction s with
  | nil => simp [jsSplit]
  | cons c cs ih =>
    rw [jsSplit]
    by_cases h : c = sep
    · subst h
      simp [List.takeWhile_cons]
    · simp only [h, if_false]
      cases hsp : jsSplit sep cs with
      | nil => exact absurd hsp (jsSplit_ne_nil sep cs)
      | cons h0 t0 =>
        rw [hsp] at ih
        simp only [List.headD_cons] at ih
        simp [List.takeWhile_cons, h, ih]

theorem step_doc_inv {name : String} (h : endsWithDoc name = true) (s : AppState)
    (hf : s.file ≠ some name) (he : name ∉ s.extracted) (e : Ev) :
    (step s e).file ≠ some name ∧ name ∉ (step s e).extracted := by
  cases e with
  | select n' =>
    by_cases hd : endsWithDoc n' = true
    · simp [step, stepSelect, hd, hf, he]
    · have hne : n' ≠ name := fun hEq => hd (hEq ▸ h)
      simp [step, stepSelect, hd, he, hne]
  | selectFormat f =>
    by_cases hc : s.conv.status = .converting ∨ s.conv.status = .completed <;>
      simp [step, stepSelectFormat, hc, hf, he]
  | start =>
    cases hfile : s.file with
    | none =>
      have hid : step s .start = s := by simp [step, stepStart, hfile]
      rw [hid]
      exact ⟨hf, he⟩
    | some n =>
      have hne : n ≠ name := fun hEq => hf (hEq ▸ hfile)
      simp [step, stepStart, hfile, he, hne, hf, Ne.symm hne]
  | finishOk =>
    cases hp : s.pending with
    | none =>
      have hid : step s .finishOk = s := by simp [step, stepFinishOk, hp]
      rw [hid]
      exact ⟨hf, he⟩
    | some p => simp [step, stepFinishOk, hp, hf, he]
  | finishFail m =>
    cases hp : s.pending with
    | none =>
      have hid : step s (.finishFail m) = s := by simp [step, stepFinishFail, hp]
      rw [hid]
      exact ⟨hf, he⟩
    | some p => simp [step, stepFinishFail, hp, hf, he]
  | reset => simp [step, stepReset, he]

theorem foldl_doc_inv {name : String} (h : endsWithDoc name = true) (evs : List Ev) :
    ∀ s : AppState, s.file ≠ some name → name ∉ s.extracted →
      (evs.foldl step s).file ≠ some name ∧ name ∉ (evs.foldl step s).extracted := by
  induction evs with
  | nil => exact fun s hf he => ⟨hf, he⟩
  | cons e evs ih =>
    intro s hf he
    have hstep := step_doc_inv h s hf he e
    exact ih (step s e) hstep.1 hstep.2

/-- Claim C1, counterexample: a surface whose height H = 2 exactly equals two
page heights (P = 1) yields 3 PDF pages, not the 2 pages the claim states -
the loop condition heightLeft >= 0 still holds when heightLeft reaches 0, so
a trailing blank page is emitted at every exact multiple. -/
theorem C1_exact_multiple_cx : pdfPages 2 1 = 3 ∧ ¬ pdfPages 2 1 = 2 := by
  have h := extraPages_closed 1 ((2 : ℚ) - 1) one_pos
  have h1 : ((2 : ℚ) - 1) / 1 = 1 := by norm_num
  rw [h1] at h
  have h2 : (⌊(1 : ℚ)⌋ + 1).toNat = 2 := by simp
  rw [pdfPages, h, h2]
  omega

/-- Claim C1 (amended): for every surface height H ≥ 0 and page height
P > 0 the pagination loop produces floor(H/P) + 1 pages - also when H is an
exact multiple of P, so H = 2P yields 3 pages, the last one blank, rather
than the 2 pages stated by the claim. -/
theorem C1_page_count (H P : ℚ) (hP : 0 < P) (hH : 0 ≤ H) :
    pdfPages H P = (⌊H / P⌋).toNat + 1 := by
  rw [pdfPages, extraPages_closed P (H - P) hP]
  have h1 : (H - P) / P = H / P - 1 := by rw [sub_div, div_self hP.ne']
  have h2 : ⌊H / P - (1 : ℚ)⌋ = ⌊H / P⌋ - 1 := by
    exact_mod_cast Int.floor_sub_int (H / P) 1
  have h3 : (0 : ℤ) ≤ ⌊H / P⌋ := Int.floor_nonneg.mpr (div_nonneg hH hP.le)
  rw [h1, h2]
  omega

/-- Witness for C1_page_count at H = 0, P = 1: a document shorter than one
page yields exactly one page. -/
theorem C1_page_count_wit : pdfPages 0 1 = 1 := by
  have h := C1_page_count 0 1 one_pos le_rfl
  simpa using h

/-- Claim C7, counterexample: the source computes file.name.split('.')[0],
the segment before the FIRST dot, so the source name my.report.txt converted
to PDF is suggested as my.pdf, not my.report.pdf as the claim (base name =
name with its extension removed) requires. -/
theorem C7_result_name_cx :
    resultNameOf "my.report.txt" .PDF = "my.pdf"
    ∧ resultNameOf "my.report.txt" .PDF ≠ specResultName "my.report.txt" .PDF
    ∧ specResultName "my.report.txt" .PDF = "my.report.pdf" := by
  refine ⟨by decide, by decide, by decide⟩

/-- Claim C7 (amended): for every source file name and target format the
suggested result name is the segment of the name before its first dot,
followed by '.' and the target format's lowercase name. -/
theorem C7_result_name (name : String) (fmt : FileFormat) :
    resultNameOf name fmt
      = String.mk (name.data.takeWhile (fun c => c != '.')) ++ "." ++ lowerStr (fmtName fmt) := by
  rw [resultNameOf, jsSplit_head]

/-- Claim C6: a selected file whose name ends case-insensitively in .doc is
rejected at selection time: the conversion state becomes error carrying the
guidance message (which names the modern .docx format), the file and the
extractor log are untouched by the selection, and in every event sequence of
a session such a name is never stored as the current file nor ever passed to
the Content Extractor. -/
theorem C6_doc_rejected (name : String) (h : endsWithDoc name = true) :
    (∀ s : AppState,
        (stepSelect s name).conv.status = .error
        ∧ (stepSelect s name).conv.errorMsg = some docGuidance
        ∧ (stepSelect s name).file = s.file
        ∧ (stepSelect s name).extracted = s.extracted)
    ∧ ".docx".data <:+: docGuidance.data
    ∧ ∀ evs : List Ev, (run evs).file ≠ some name ∧ name ∉ (run evs).extracted := by
  refine ⟨fun s => ?_, by decide, fun evs => ?_⟩
  · simp [stepSelect, h]
  · exact foldl_doc_inv h evs initState (by simp [initState]) (by simp [initState])

/-- Witness for C6_doc_rejected at the scenario file name report.doc. -/
theorem C6_doc_rejected_wit :
    (stepSelect initState "report.doc").conv.status = .error
    ∧ (stepSelect initState "report.doc").conv.errorMsg = some docGuidance
    ∧ "report.doc" ∉ (run [.select "report.doc", .start]).extracted := by
  have h := C6_doc_rejected "report.doc" (by decide)
  exact ⟨(h.1 initState).1, (h.1 initState).2.1, (h.2.2 [.select "report.doc", .start]).2⟩

/-- Claim C8: every failure of an in-flight conversion attempt is caught and
produces the terminal error state carrying the thrown message, or the
generic timeout-style fallback message when the message is absent or empty
(JavaScript err.message || fallback); the state is never left converting and
no partial result fields are retained. -/
theorem C8_failures_caught (s : AppState) (m : Option String) (h : s.pending ≠ none) :
    (stepFinishFail s m).conv.status = .error
    ∧ (stepFinishFail s m).conv.status ≠ .converting
    ∧ (stepFinishFail s m).conv.resultUrl = none
    ∧ (stepFinishFail s m).conv.resultName = none
    ∧ (stepFinishFail s m).conv.errorMsg = some (errShown m)
    ∧ (∀ t, m = some t → t ≠ "" → errShown m = t)
    ∧ ((m = none ∨ m = some "") → errShown m = fallbackMsg) := by
  obtain ⟨p, hp⟩ := Option.ne_none_iff_exists.mp h
  refine ⟨?_, ?_, ?_, ?_, ?_, ?_, ?_⟩
  · simp [stepFinishFail, ← hp]
  · simp [stepFinishFail, ← hp]
  · simp [stepFinishFail, ← hp]
  · simp [stepFinishFail, ← hp]
  · simp [stepFinishFail, ← hp]
  · rintro t rfl ht
    simp [errShown, ht]
  · rintro (rfl | rfl) <;> simp [errShown]

/-- Witness for C8_failures_caught: a pending attempt failing with message
"boom" ends in the error state showing "boom". -/
theorem C8_failures_caught_wit :
    (stepFinishFail { initState with pending := some ("a.txt", .PDF) } (some "boom")).conv.status = .error
    ∧ (stepFinishFail { initState with pending := some ("a.txt", .PDF) } (some "boom")).conv.errorMsg
        = some "boom" := by
  have h := C8_failures_caught { initState with pending := some ("a.txt", .PDF) } (some "boom")
    (by simp)
  refine ⟨h.1, ?_⟩
  rw [h.2.2.2.2.1]
  decide

/-- Claim C5, counterexample: converting a.txt, then selecting b.txt and
converting again leaves both created result URLs unreleased - selecting a
new file discards the held ConversionResult without revoking its URL, so two
result references are live at once, contradicting the claimed at-most-one
invariant. -/
theorem C5_url_release_cx :
    (run [.select "a.txt", .start, .finishOk, .select "b.txt", .start, .finishOk]).liveUrls = [0, 1]
    ∧ ¬ (run [.select "a.txt", .start, .finishOk,
              .select "b.txt", .start, .finishOk]).liveUrls.length ≤ 1 := by
  refine ⟨by decide, by decide⟩

/-- Claim C5 (amended): only the explicit reset releases the held result
URL (revoking it before clearing the state); selecting a new SourceDocument
discards the ConversionResult reference without releasing its URL, so
repeated select-and-convert cycles accumulate unreleased result references. -/
theorem C5_reset_releases (s : AppState) (u : ℕ) (h : s.conv.resultUrl = some u) :
    (stepReset s).liveUrls = s.liveUrls.erase u
    ∧ (stepReset s).conv.resultUrl = none
    ∧ ∀ name, (stepSelect s name).liveUrls = s.liveUrls := by
  refine ⟨by simp [stepReset, h], by simp [stepReset], fun name => ?_⟩
  by_cases hd : endsWithDoc name = true <;> simp [stepSelect, hd]

/-- Witness for C5_reset_releases: resetting a completed state holding URL 5
revokes it. -/
theorem C5_reset_releases_wit :
    (stepReset { initState with
        conv := { status := .completed, progress := 100, errorMsg := none,
                  resultUrl := some 5, resultName := some "a.pdf" },
        liveUrls := [5], nextUrl := 6 }).liveUrls = [] := by
  have h := C5_reset_releases { initState with
      conv := { status := .completed, progress := 100, errorMsg := none,
                resultUrl := some 5, resultName := some "a.pdf" },
      liveUrls := [5], nextUrl := 6 } 5 rfl
  rw [h.1]
  decide

/-- Claim C10, counterexample: after select a.txt, start, reset, the stale
attempt's completion is still applied - the final state is completed with a
result URL even though the session was reset to no file, so the eventual
result of a superseded attempt is not discarded. -/
theorem C10_stale_write_cx :
    (run [.select "a.txt", .start, .reset, .finishOk]).conv.status = .completed
    ∧ (run [.select "a.txt", .start, .reset, .finishOk]).file = none
    ∧ (run [.select "a.txt", .start, .reset, .finishOk]).conv.resultUrl = some 0 := by
  refine ⟨by decide, by decide, by decide⟩

/-- Claim C10 (amended): result application is keyed on nothing - the
resolution of an in-flight attempt writes the completed state with its
result unconditionally, whatever the current session state is, so a reset or
a new selection during converting is overwritten by the stale attempt's
completion instead of discarding it. -/
theorem C10_unconditional_apply (s : AppState) (n : String) (f : FileFormat)
    (h : s.pending = some (n, f)) :
    (stepFinishOk s).conv.status = .completed
    ∧ (stepFinishOk s).conv.resultUrl = some s.nextUrl
    ∧ (stepFinishOk s).conv.resultName = some (resultNameOf n f) := by
  refine ⟨?_, ?_, ?_⟩ <;> simp [stepFinishOk, h]

/-- Witness for C10_unconditional_apply on a freshly pending attempt. -/
theorem C10_unconditional_apply_wit :
    (stepFinishOk { initState with pending := some ("a.txt", .PDF) }).conv.status = .completed
    ∧ (stepFinishOk { initState with pending := some ("a.txt", .PDF) }).conv.resultName
        = some "a.pdf" := by
  have h := C10_unconditional_apply { initState with pending := some ("a.txt", .PDF) }
    "a.txt" .PDF rfl
  refine ⟨h.1, ?_⟩
  rw [h.2.2]
  decide

theorem toLower_eq_lt {c : Char} (h : c.toLower = '<') : c = '<' := by
  by_cases hc : c.toNat ≥ 65 ∧ c.toNat ≤ 90
  · exfalso
    have hdef : c.toLower = if c.toNat ≥ 65 ∧ c.toNat ≤ 90 then Char.ofNat (c.toNat + 32) else c :=
      rfl
    rw [hdef, if_pos hc] at h
    obtain ⟨h65, h90⟩ := hc
    set n := c.toNat with hn
    interval_cases n <;> revert h <;> decide
  · have hdef : c.toLower = if c.toNat ≥ 65 ∧ c.toNat ≤ 90 then Char.ofNat (c.toNat + 32) else c :=
      rfl
    rw [hdef, if_neg hc] at h
    exact h

theorem ciPre_append (pat : List Char) :
    ∀ a r : List Char, ciPre pat a = true → ciPre pat (a ++ r) = true := by
  induction pat with
  | nil => intro a r _; simp [ciPre]
  | cons p ps ih =>
    intro a r h
    cases a with
    | nil => simp [ciPre] at h
    | cons c cs =>
      simp only [ciPre, Bool.and_eq_true, beq_iff_eq] at h
      simp only [List.cons_append, ciPre, Bool.and_eq_true, beq_iff_eq]
      exact ⟨h.1, ih cs r h.2⟩

theorem ciStop_append (pat : List Char) :
    ∀ a r : List Char, ciStop pat a = true → ciPre pat (a ++ r) = false := by
  induction pat with
  | nil =>
    intro a r h
    cases a <;> simp [ciStop] at h
  | cons p ps ih =>
    intro a r h
    cases a with
    | nil => simp [ciStop] at h
    | cons c cs =>
      simp only [ciStop, Bool.or_eq_true, Bool.not_eq_eq_eq_not, Bool.not_true,
        beq_eq_false_iff_ne, ne_eq] at h
      simp only [List.cons_append, ciPre, Bool.and_eq_false_iff]
      rcases h with h | h
      · exact Or.inl (by simpa using h)
      · exact Or.inr (ih cs r h)

theorem ciPre_head_false {c : Char} (ps cs : List Char) (h : c ≠ '<') :
    ciPre ('<' :: ps) (c :: cs) = false := by
  have h1 : (c.toLower == '<'.toLower) = false := by
    rw [show '<'.toLower = '<' from by decide]
    exact beq_eq_false_iff_ne.mpr (fun hEq => h (toLower_eq_lt hEq))
  simp only [ciPre, h1, Bool.false_and]

theorem replCI_skip (ps repl : List Char) :
    ∀ a : List Char, (∀ c ∈ a, c ≠ '<') →
      ∀ s : List Char, replCI '<' ps repl (a ++ s) = a ++ replCI '<' ps repl s := by
  intro a
  induction a with
  | nil => intro _ s; simp
  | cons c a' ih =>
    intro h s
    have hc : c ≠ '<' := h c (by simp)
    rw [List.cons_append, replCI, if_neg (by simp [ciPre_head_false ps _ hc])]
    rw [ih (fun d hd => h d (by simp [hd])) s, List.cons_append]

theorem replCI_match_head (ps repl a : List Char) (hci : ciPre ('<' :: ps) a = true)
    (hlen : a.length = ps.length + 1) :
    ∀ s : List Char, replCI '<' ps repl (a ++ s) = repl ++ replCI '<' ps repl s := by
  intro s
  cases a with
  | nil => simp [ciPre] at hci
  | cons c a' =>
    rw [List.cons_append, replCI,
      if_pos (by simpa [List.cons_append] using ciPre_append _ (c :: a') s hci)]
    have hlen' : a'.length = ps.length := by simpa using hlen
    rw [← hlen', List.drop_left]

theorem replCI_pieces (ps repl : List Char) :
    ∀ l : List (List Char × List Char), (∀ x ∈ l, PieceCase ps repl x.1 x.2) →
      replCI '<' ps repl (l.map Prod.fst).flatten = (l.map Prod.snd).flatten := by
  intro l
  induction l with
  | nil => intro _; simp [replCI]
  | cons x t ih =>
    intro hl
    obtain ⟨a, b⟩ := x
    have hx : PieceCase ps repl a b := hl (a, b) (by simp)
    have ht : ∀ y ∈ t, PieceCase ps repl y.1 y.2 := fun y hy => hl y (by simp [hy])
    simp only [List.map_cons, List.flatten_cons]
    rcases hx with ⟨hci, hlen, hb⟩ | ⟨hna, hb⟩ | ⟨hstop, htail, hb⟩
    · rw [hb, replCI_match_head ps repl a hci hlen, ih ht]
    · rw [hb, replCI_skip ps repl a hna, ih ht]
    · rw [hb]
      cases a with
      | nil => simp [ciStop] at hstop
      | cons c a' =>
        rw [List.cons_append, replCI,
          if_neg (by simpa [List.cons_append] using ciStop_append _ (c :: a') _ hstop)]
        have htail' : ∀ d ∈ a', d ≠ '<' := by simpa using htail
        rw [replCI_skip ps repl a' htail', ih ht, List.cons_append]

theorem replBr_skip :
    ∀ a : List Char, (∀ c ∈ a, c ≠ '<') →
      ∀ s : List Char, replBr (a ++ s) = a ++ replBr s := by
  intro a
  induction a with
  | nil => intro _ s; simp
  | cons c a' ih =>
    intro h s
    have hc : c ≠ '<' := h c (by simp)
    rw [List.cons_append, replBr, if_neg (by simp [ciPre_head_false ['b', 'r'] _ hc])]
    rw [ih (fun d hd => h d (by simp [hd])) s, List.cons_append]

theorem replBr_match_head : ∀ s : List Char, replBr ("<br/>".data ++ s) = '\n' :: replBr s := by
  intro s
  show replBr ('<' :: 'b' :: 'r' :: '/' :: '>' :: s) = '\n' :: replBr s
  rw [replBr]
  rfl

theorem replBr_pieces :
    ∀ l : List (List Char × List Char), (∀ x ∈ l, BrPieceCase x.1 x.2) →
      replBr (l.map Prod.fst).flatten = (l.map Prod.snd).flatten := by
  intro l
  induction l with
  | nil => intro _; simp [replBr]
  | cons x t ih =>
    intro hl
    obtain ⟨a, b⟩ := x
    have hx : BrPieceCase a b := hl (a, b) (by simp)
    have ht : ∀ y ∈ t, BrPieceCase y.1 y.2 := fun y hy => hl y (by simp [hy])
    simp only [List.map_cons, List.flatten_cons]
    rcases hx with ⟨ha, hb⟩ | ⟨hna, hb⟩ | ⟨hstop, htail, hb⟩
    · rw [hb, ha, replBr_match_head, ih ht]
      rfl
    · rw [hb, replBr_skip a hna, ih ht]
    · rw [hb]
      cases a with
      | nil => simp [ciStop] at hstop
      | cons c a' =>
        rw [List.cons_append, replBr,
          if_neg (by simpa [List.cons_append] using ciStop_append _ (c :: a') _ hstop)]
        have htail' : ∀ d ∈ a', d ≠ '<' := by simpa using htail
        rw [replBr_skip a' htail', ih ht, List.cons_append]

theorem tagScan_append :
    ∀ (a : List Char) (k : ℕ), tagScan a = some k → ∀ r, tagScan (a ++ r) = some k := by
  intro a
  induction a with
  | nil => intro k h; simp [tagScan] at h
  | cons c cs ih =>
    intro k h r
    rw [tagScan] at h
    rw [List.cons_append, tagScan]
    by_cases hc : c = '>'
    · rw [if_pos hc] at h
      rw [if_pos hc]
      exact h
    · rw [if_neg hc] at h
      rw [if_neg hc]
      cases hk : tagScan cs with
      | some k' =>
        rw [hk] at h
        rw [ih k' hk r]
        exact h
      | none => rw [hk] at h; exact absurd h (by simp)

theorem tagScan_none :
    ∀ a : List Char, tagScan a = none → ∀ c ∈ a, c ≠ '>' := by
  intro a
  induction a with
  | nil => intro _ c hc; simp at hc
  | cons d cs ih =>
    intro h c hc
    rw [tagScan] at h
    by_cases hd : d = '>'
    · rw [if_pos hd] at h; exact absurd h (by simp)
    · rw [if_neg hd] at h
      rcases List.mem_cons.mp hc with rfl | hmem
      · exact hd
      · cases hk : tagScan cs with
        | some k' => rw [hk] at h; exact absurd h (by simp)
        | none => exact ih hk c hmem

theorem tagLen1_append {a : List Char} {k : ℕ} (h : tagLen1 a = some k) :
    ∀ r, tagLen1 (a ++ r) = some k := by
  intro r
  match a with
  | [] => simp [tagLen1] at h
  | [c] => simp [tagLen1] at h
  | c :: d :: rest =>
    rw [tagLen1] at h
    show tagLen1 (c :: d :: (rest ++ r)) = some k
    rw [tagLen1]
    by_cases hc : c = '<'
    · rw [if_pos hc] at h
      rw [if_pos hc]
      by_cases hd : d = '>'
      · rw [if_pos hd] at h; exact absurd h (by simp)
      · rw [if_neg hd] at h
        rw [if_neg hd]
        cases hk : tagScan (d :: rest) with
        | some k0 =>
          rw [hk] at h
          have := tagScan_append (d :: rest) k0 hk r
          rw [show (d :: rest) ++ r = d :: (rest ++ r) from rfl] at this
          rw [this]
          exact h
        | none => rw [hk] at h; exact absurd h (by simp)
    · rw [if_neg hc] at h; exact absurd h (by simp)

theorem tagLen1_head_none {c : Char} (cs : List Char) (h : c ≠ '<') :
    tagLen1 (c :: cs) = none := by
  cases cs with
  | nil => rfl
  | cons d rest => simp [tagLen1, h]

theorem stripTags_skip :
    ∀ a : List Char, (∀ c ∈ a, c ≠ '<') →
      ∀ s : List Char, stripTags (a ++ s) = a ++ stripTags s := by
  intro a
  induction a with
  | nil => intro _ s; simp
  | cons c a' ih =>
    intro h s
    have hc : c ≠ '<' := h c (by simp)
    rw [List.cons_append, stripTags, tagLen1_head_none _ hc]
    rw [ih (fun d hd => h d (by simp [hd])) s, List.cons_append]

theorem stripTags_match_head {a : List Char} (h : tagLen1 a = some a.length) :
    ∀ s : List Char, stripTags (a ++ s) = stripTags s := by
  intro s
  match a with
  | [] => simp [tagLen1] at h
  | [c] => simp [tagLen1] at h
  | c :: d :: rest =>
    have happ := tagLen1_append h s
    rw [show (c :: d :: rest) ++ s = c :: (d :: (rest ++ s)) from rfl] at happ
    rw [show (c :: d :: rest) ++ s = c :: (d :: (rest ++ s)) from rfl, stripTags, happ]
    have hlen : (c :: d :: rest).length - 1 = (d :: rest).length := by simp
    dsimp only
    rw [hlen, show d :: (rest ++ s) = (d :: rest) ++ s from rfl, List.drop_left]

theorem stripTags_pieces :
    ∀ l : List (List Char × List Char), (∀ x ∈ l, TagPieceCase x.1 x.2) →
      stripTags (l.map Prod.fst).flatten = (l.map Prod.snd).flatten := by
  intro l
  induction l with
  | nil => intro _; simp [stripTags]
  | cons x t ih =>
    intro hl
    obtain ⟨a, b⟩ := x
    have hx : TagPieceCase a b := hl (a, b) (by simp)
    have ht : ∀ y ∈ t, TagPieceCase y.1 y.2 := fun y hy => hl y (by simp [hy])
    simp only [List.map_cons, List.flatten_cons]
    rcases hx with ⟨hm, hb⟩ | ⟨hna, hb⟩
    · rw [hb, stripTags_match_head hm, ih ht, List.nil_append]
    · rw [hb, stripTags_skip a hna, ih ht]

theorem ci_pass_gen (ps repl : List Char) (f g : Node → List Char)
    (hf : ∀ t, f (Node.text t) = t) (hg : ∀ t, g (Node.text t) = t)
    (htab : ∀ n ∈ tagNodes, PieceCase ps repl (f n) (g n))
    (ns : List Node) (hwf : wfFrag ns = true) :
    replCI '<' ps repl ((ns.map f).flatten) = (ns.map g).flatten := by
  have h := replCI_pieces ps repl (ns.map (fun n => (f n, g n)))
  rw [List.map_map, List.map_map] at h
  apply h
  intro x hx
  simp only [List.mem_map] at hx
  obtain ⟨n, hn, rfl⟩ := hx
  have hwn : wfNode n = true := List.all_eq_true.mp hwf n hn
  cases n with
  | text t =>
    right; left
    refine ⟨?_, by rw [hf, hg]⟩
    rw [hf]
    intro c hc
    simp only [wfNode, List.all_eq_true] at hwn
    have h3 := hwn c hc
    simp only [Bool.and_eq_true, bne_iff_ne, ne_eq] at h3
    exact h3.1
  | h1o => exact htab _ (by decide)
  | h1c => exact htab _ (by decide)
  | h2o => exact htab _ (by decide)
  | h2c => exact htab _ (by decide)
  | po => exact htab _ (by decide)
  | pc => exact htab _ (by decide)
  | br => exact htab _ (by decide)
  | ulo => exact htab _ (by decide)
  | ulc => exact htab _ (by decide)
  | lio => exact htab _ (by decide)
  | lic => exact htab _ (by decide)
  | sgo => exact htab _ (by decide)
  | sgc => exact htab _ (by decide)

theorem br_pass_gen (f g : Node → List Char)
    (hf : ∀ t, f (Node.text t) = t) (hg : ∀ t, g (Node.text t) = t)
    (htab : ∀ n ∈ tagNodes, BrPieceCase (f n) (g n))
    (ns : List Node) (hwf : wfFrag ns = true) :
    replBr ((ns.map f).flatten) = (ns.map g).flatten := by
  have h := replBr_pieces (ns.map (fun n => (f n, g n)))
  rw [List.map_map, List.map_map] at h
  apply h
  intro x hx
  simp only [List.mem_map] at hx
  obtain ⟨n, hn, rfl⟩ := hx
  have hwn : wfNode n = true := List.all_eq_true.mp hwf n hn
  cases n with
  | text t =>
    right; left
    refine ⟨?_, by rw [hf, hg]⟩
    rw [hf]
    intro c hc
    simp only [wfNode, List.all_eq_true] at hwn
    have h3 := hwn c hc
    simp only [Bool.and_eq_true, bne_iff_ne, ne_eq] at h3
    exact h3.1
  | h1o => exact htab _ (by decide)
  | h1c => exact htab _ (by decide)
  | h2o => exact htab _ (by decide)
  | h2c => exact htab _ (by decide)
  | po => exact htab _ (by decide)
  | pc => exact htab _ (by decide)
  | br => exact htab _ (by decide)
  | ulo => exact htab _ (by decide)
  | ulc => exact htab _ (by decide)
  | lio => exact htab _ (by decide)
  | lic => exact htab _ (by decide)
  | sgo => exact htab _ (by decide)
  | sgc => exact htab _ (by decide)

theorem tag_pass_gen (f g : Node → List Char)
    (hf : ∀ t, f (Node.text t) = t) (hg : ∀ t, g (Node.text t) = t)
    (htab : ∀ n ∈ tagNodes, TagPieceCase (f n) (g n))
    (ns : List Node) (hwf : wfFrag ns = true) :
    stripTags ((ns.map f).flatten) = (ns.map g).flatten := by
  have h := stripTags_pieces (ns.map (fun n => (f n, g n)))
  rw [List.map_map, List.map_map] at h
  apply h
  intro x hx
  simp only [List.mem_map] at hx
  obtain ⟨n, hn, rfl⟩ := hx
  have hwn : wfNode n = true := List.all_eq_true.mp hwf n hn
  cases n with
  | text t =>
    right
    refine ⟨?_, by rw [hf, hg]⟩
    rw [hf]
    intro c hc
    simp only [wfNode, List.all_eq_true] at hwn
    have h3 := hwn c hc
    simp only [Bool.and_eq_true, bne_iff_ne, ne_eq] at h3
    exact h3.1
  | h1o => exact htab _ (by decide)
  | h1c => exact htab _ (by decide)
  | h2o => exact htab _ (by decide)
  | h2c => exact htab _ (by decide)
  | po => exact htab _ (by decide)
  | pc => exact htab _ (by decide)
  | br => exact htab _ (by decide)
  | ulo => exact htab _ (by decide)
  | ulc => exact htab _ (by decide)
  | lio => exact htab _ (by decide)
  | lic => exact htab _ (by decide)
  | sgo => exact htab _ (by decide)
  | sgc => exact htab _ (by decide)

theorem md_frag (ns : List Node) (hwf : wfFrag ns = true) :
    mdEncodeL (fragChars ns) = (ns.map mdVal).flatten := by
  have e0 : fragChars ns = (ns.map (mdStage 1)).flatten := by
    unfold fragChars
    congr 1
    exact List.map_congr_left (fun n _ => by cases n <;> rfl)
  have e1 := ci_pass_gen "h1>".data "# ".data (mdStage 1) (mdStage 2)
    (fun t => rfl) (fun t => rfl) (by decide) ns hwf
  have e2 := ci_pass_gen "/h1>".data "\n\n".data (mdStage 2) (mdStage 3)
    (fun t => rfl) (fun t => rfl) (by decide) ns hwf
  have e3 := ci_pass_gen "h2>".data "## ".data (mdStage 3) (mdStage 4)
    (fun t => rfl) (fun t => rfl) (by decide) ns hwf
  have e4 := ci_pass_gen "/h2>".data "\n\n".data (mdStage 4) (mdStage 5)
    (fun t => rfl) (fun t => rfl) (by decide) ns hwf
  have e5 := ci_pass_gen "p>".data [] (mdStage 5) (mdStage 6)
    (fun t => rfl) (fun t => rfl) (by decide) ns hwf
  have e6 := ci_pass_gen "/p>".data "\n\n".data (mdStage 6) (mdStage 7)
    (fun t => rfl) (fun t => rfl) (by decide) ns hwf
  have e7 := br_pass_gen (mdStage 7) (mdStage 8)
    (fun t => rfl) (fun t => rfl) (by decide) ns hwf
  have e8 := ci_pass_gen "li>".data "* ".data (mdStage 8) (mdStage 9)
    (fun t => rfl) (fun t => rfl) (by decide) ns hwf
  have e9 := ci_pass_gen "/li>".data "\n".data (mdStage 9) (mdStage 10)
    (fun t => rfl) (fun t => rfl) (by decide) ns hwf
  have e10 := tag_pass_gen (mdStage 10) (mdStage 11)
    (fun t => rfl) (fun t => rfl) (by decide) ns hwf
  have e11 : (ns.map (mdStage 11)).flatten = (ns.map mdVal).flatten := by
    congr 1
    exact List.map_congr_left (fun n _ => by cases n <;> rfl)
  simp only [mdEncodeL]
  rw [e0, e1, e2, e3, e4, e5, e6, e7, e8, e9, e10, e11]

theorem txt_frag (ns : List Node) (hwf : wfFrag ns = true) :
    txtEncodeL (fragChars ns) = trimChars ((ns.map txtVal).flatten) := by
  have e0 : fragChars ns = (ns.map (txtStage 1)).flatten := by
    unfold fragChars
    congr 1
    exact List.map_congr_left (fun n _ => by cases n <;> rfl)
  have e1 := br_pass_gen (txtStage 1) (txtStage 2)
    (fun t => rfl) (fun t => rfl) (by decide) ns hwf
  have e2 := ci_pass_gen "/p>".data "\n".data (txtStage 2) (txtStage 3)
    (fun t => rfl) (fun t => rfl) (by decide) ns hwf
  have e3 := tag_pass_gen (txtStage 3) (txtStage 4)
    (fun t => rfl) (fun t => rfl) (by decide) ns hwf
  have e4 : (ns.map (txtStage 4)).flatten = (ns.map txtVal).flatten := by
    congr 1
    exact List.map_congr_left (fun n _ => by cases n <;> rfl)
  simp only [txtEncodeL]
  rw [e0, e1, e2, e3, e4]

theorem filter_keep_dropWhile (x : List Char) :
    (x.dropWhile Char.isWhitespace).filter keepChar = x.filter keepChar := by
  induction x with
  | nil => rfl
  | cons c cs ih =>
    by_cases hw : Char.isWhitespace c = true
    · rw [List.dropWhile_cons_of_pos hw, ih, List.filter_cons_of_neg (by simp [keepChar, hw])]
    · rw [List.dropWhile_cons_of_neg hw]

theorem filter_keep_trim (x : List Char) :
    (trimChars x).filter keepChar = x.filter keepChar := by
  unfold trimChars
  rw [List.filter_reverse, filter_keep_dropWhile, List.filter_reverse, List.reverse_reverse,
    filter_keep_dropWhile]

/-- Claim C3, counterexample: for the allowlisted fragment <h1>T</h1> the
Markdown output stripped of markdown syntax is "T\n\n" while the Plain-Text
output with header markers removed is "T" - the two encoders do not preserve
identical text, they differ in the whitespace the Markdown encoder inserts
for header and paragraph boundaries and the Plain-Text encoder trims. -/
theorem C3_content_eq_cx :
    stripMdSyntax (mdEncodeL "<h1>T</h1>".data) = "T\n\n".data
    ∧ stripHdrMarkers (txtEncodeL "<h1>T</h1>".data) = "T".data
    ∧ stripMdSyntax (mdEncodeL "<h1>T</h1>".data)
        ≠ stripHdrMarkers (txtEncodeL "<h1>T</h1>".data) := by
  have hfrag : fragChars [Node.h1o, Node.text "T".data, Node.h1c] = "<h1>T</h1>".data := by
    decide
  have hmd : mdEncodeL "<h1>T</h1>".data = "# T\n\n".data := by
    rw [← hfrag, md_frag _ (by decide)]
    decide
  have htxt : txtEncodeL "<h1>T</h1>".data = "T".data := by
    rw [← hfrag, txt_frag _ (by decide)]
    decide
  have a1 : replCI '#' "# ".data [] "# T\n\n".data = "# T\n\n".data := by
    rw [replCI_eq_fuel 20 _ _ _ _ (by decide)]
    decide
  have a2 : replCI '#' " ".data [] "# T\n\n".data = "T\n\n".data := by
    rw [replCI_eq_fuel 20 _ _ _ _ (by decide)]
    decide
  have a3 : replCI '*' " ".data [] "T\n\n".data = "T\n\n".data := by
    rw [replCI_eq_fuel 20 _ _ _ _ (by decide)]
    decide
  have b1 : replCI '#' "# ".data [] "T".data = "T".data := by
    rw [replCI_eq_fuel 20 _ _ _ _ (by decide)]
    decide
  have b2 : replCI '#' " ".data [] "T".data = "T".data := by
    rw [replCI_eq_fuel 20 _ _ _ _ (by decide)]
    decide
  have hsm : stripMdSyntax (mdEncodeL "<h1>T</h1>".data) = "T\n\n".data := by
    rw [hmd]
    unfold stripMdSyntax
    rw [a1, a2, a3]
  have hsh : stripHdrMarkers (txtEncodeL "<h1>T</h1>".data) = "T".data := by
    rw [htxt]
    unfold stripHdrMarkers
    rw [b1, b2]
  refine ⟨hsm, hsh, ?_⟩
  rw [hsm, hsh]
  decide

/-- Claim C3 (amended): for every fragment built from the allowlisted tags
and tag-free text, the Markdown and Plain-Text encoder outputs carry the
same content characters: after discarding whitespace and the markdown
marker characters # and * from both outputs, they are equal.  (Literal
equality after stripping markdown syntax fails: the Markdown encoder
inserts blank lines for header and paragraph boundaries that the Plain-Text
encoder does not, see the counterexample.) -/
theorem C3_content_eq (ns : List Node) (hwf : wfFrag ns = true) :
    (mdEncodeL (fragChars ns)).filter keepChar
      = (txtEncodeL (fragChars ns)).filter keepChar := by
  rw [md_frag ns hwf, txt_frag ns hwf, filter_keep_trim]
  rw [List.filter_flatten, List.filter_flatten]
  congr 1
  rw [List.map_map, List.map_map]
  apply List.map_congr_left
  intro n _
  cases n with
  | text t => rfl
  | h1o => decide
  | h1c => decide
  | h2o => decide
  | h2c => decide
  | po => decide
  | pc => decide
  | br => decide
  | ulo => decide
  | ulc => decide
  | lio => decide
  | lic => decide
  | sgo => decide
  | sgc => decide

/-- Witness for C3_content_eq at the specification's scenario fragment. -/
theorem C3_content_eq_wit :
    wfFrag [Node.h1o, Node.text "Title".data, Node.h1c, Node.po,
            Node.text "Line one".data, Node.br, Node.text "Line two".data, Node.pc] = true
    ∧ (mdEncodeL (fragChars [Node.h1o, Node.text "Title".data, Node.h1c, Node.po,
            Node.text "Line one".data, Node.br, Node.text "Line two".data, Node.pc])).filter keepChar
      = (txtEncodeL (fragChars [Node.h1o, Node.text "Title".data, Node.h1c, Node.po,
            Node.text "Line one".data, Node.br, Node.text "Line two".data, Node.pc])).filter keepChar :=
  ⟨by decide, C3_content_eq _ (by decide)⟩

theorem mem_trimChars {c : Char} {x : List Char} (h : c ∈ trimChars x) : c ∈ x := by
  unfold trimChars at h
  rw [List.mem_reverse] at h
  have h2 : c ∈ (x.dropWhile Char.isWhitespace).reverse :=
    (List.dropWhile_sublist _).subset h
  rw [List.mem_reverse] at h2
  exact (List.dropWhile_sublist _).subset h2

/-- Claim C9, counterexample: the fragment consisting of the single
character > is fixed by every pass of the Plain-Text encoder (the catch-all
pattern requires a complete tag), so the output contains the closing angle
bracket - the claim is false for arbitrary HTML fragments. -/
theorem C9_no_angle_cx :
    txtEncodeL ">".data = ">".data ∧ '>' ∈ txtEncodeL ">".data := by
  have b1 : replBr ">".data = ">".data := by
    rw [replBr_eq_fuel 5 _ (by decide)]
    decide
  have b2 : replCI '<' "/p>".data "\n".data ">".data = ">".data := by
    rw [replCI_eq_fuel 5 _ _ _ _ (by decide)]
    decide
  have b3 : stripTags ">".data = ">".data := by
    rw [stripTags_eq_fuel 5 _ (by decide)]
    decide
  have hval : txtEncodeL ">".data = ">".data := by
    simp only [txtEncodeL]
    rw [b1, b2, b3]
    decide
  exact ⟨hval, by rw [hval]; decide⟩

/-- Claim C9 (amended): for every fragment built from the allowlisted tags
and tag-free text, the Plain-Text encoder output contains no angle bracket.
(For arbitrary input strings the claim fails: a stray closing bracket with
no matching complete tag survives every pass, see the counterexample.) -/
theorem C9_no_angle (ns : List Node) (hwf : wfFrag ns = true) :
    ∀ c ∈ txtEncodeL (fragChars ns), c ≠ '<' ∧ c ≠ '>' := by
  rw [txt_frag ns hwf]
  intro c hc
  have hc2 := mem_trimChars hc
  rw [List.mem_flatten] at hc2
  obtain ⟨l, hl, hcl⟩ := hc2
  rw [List.mem_map] at hl
  obtain ⟨n, hn, rfl⟩ := hl
  have hwn : wfNode n = true := List.all_eq_true.mp hwf n hn
  cases n with
  | text t =>
    simp only [wfNode, List.all_eq_true] at hwn
    have h3 := hwn c hcl
    simp only [Bool.and_eq_true, bne_iff_ne, ne_eq] at h3
    exact h3
  | br =>
    simp only [txtVal, List.mem_singleton] at hcl
    subst hcl
    exact ⟨by decide, by decide⟩
  | pc =>
    simp only [txtVal, List.mem_singleton] at hcl
    subst hcl
    exact ⟨by decide, by decide⟩
  | h1o => simp [txtVal] at hcl
  | h1c => simp [txtVal] at hcl
  | h2o => simp [txtVal] at hcl
  | h2c => simp [txtVal] at hcl
  | po => simp [txtVal] at hcl
  | ulo => simp [txtVal] at hcl
  | ulc => simp [txtVal] at hcl
  | lio => simp [txtVal] at hcl
  | lic => simp [txtVal] at hcl
  | sgo => simp [txtVal] at hcl
  | sgc => simp [txtVal] at hcl

/-- Witness for C9_no_angle: the encoded scenario header fragment contains
no angle bracket. -/
theorem C9_no_angle_wit :
    '<' ∉ txtEncodeL (fragChars [Node.h1o, Node.text "Title".data, Node.h1c])
    ∧ '>' ∉ txtEncodeL (fragChars [Node.h1o, Node.text "Title".data, Node.h1c]) := by
  have h := C9_no_angle [Node.h1o, Node.text "Title".data, Node.h1c] (by decide)
  constructor
  · intro hmem
    exact (h '<' hmem).1 rfl
  · intro hmem
    exact (h '>' hmem).2 rfl

theorem tagScan_none_of :
    ∀ a : List Char, (∀ c ∈ a, c ≠ '>') → tagScan a = none := by
  intro a
  induction a with
  | nil => intro _; rfl
  | cons d cs ih =>
    intro h
    rw [tagScan, if_neg (h d (by simp)), ih (fun c hc => h c (by simp [hc]))]

theorem stripTags_sublist : ∀ s : List Char, List.Sublist (stripTags s) s := by
  intro s
  induction s using stripTags.induct with
  | case1 => simp [stripTags]
  | case2 c cs k hk ih =>
    rw [stripTags, hk]
    dsimp only
    exact (ih.trans (List.drop_sublist _ _)).trans (List.sublist_cons_self c cs)
  | case3 c cs hk ih =>
    rw [stripTags, hk]
    dsimp only
    exact ih.cons₂ c

theorem hasTag_append_left :
    ∀ (x r : List Char), hasTag x = true → hasTag (x ++ r) = true := by
  intro x
  induction x with
  | nil => intro r h; simp [hasTag] at h
  | cons c cs ih =>
    intro r h
    rw [hasTag] at h
    rw [List.cons_append, hasTag]
    rcases Bool.or_eq_true_iff.mp h with h1 | h2
    · cases hk : tagLen1 (c :: cs) with
      | some k =>
        have happ := tagLen1_append hk r
        simp only [List.cons_append] at happ
        rw [happ]
        simp
      | none => rw [hk] at h1; simp at h1
    · rw [ih r h2]
      simp

theorem hasTag_append_right :
    ∀ (a x : List Char), hasTag x = true → hasTag (a ++ x) = true := by
  intro a
  induction a with
  | nil => intro x h; simpa using h
  | cons c a' ih =>
    intro x h
    rw [List.cons_append, hasTag, ih x h]
    simp

theorem hasTag_within {x y : List Char} (hinf : x <:+: y) (h : hasTag x = true) :
    hasTag y = true := by
  obtain ⟨s, t, rfl⟩ := hinf
  rw [List.append_assoc]
  exact hasTag_append_right s _ (hasTag_append_left x t h)

theorem trimChars_within (x : List Char) : trimChars x <:+: x := by
  obtain ⟨a, ha⟩ := List.dropWhile_suffix (l := x) Char.isWhitespace
  obtain ⟨b, hb⟩ := List.dropWhile_suffix
    (l := (x.dropWhile Char.isWhitespace).reverse) Char.isWhitespace
  refine ⟨a, b.reverse, ?_⟩
  have hx : x.dropWhile Char.isWhitespace = trimChars x ++ b.reverse := by
    have := congrArg List.reverse hb
    simp only [List.reverse_append, List.reverse_reverse] at this
    rw [← this]
    rfl
  rw [List.append_assoc, ← hx, ha]

theorem hasTag_stripTags : ∀ s : List Char, hasTag (stripTags s) = false := by
  intro s
  induction s using stripTags.induct with
  | case1 => simp [stripTags, hasTag]
  | case2 c cs k hk ih =>
    rw [stripTags, hk]
    dsimp only
    exact ih
  | case3 c cs hk ih =>
    rw [stripTags, hk]
    dsimp only
    rw [hasTag, ih]
    suffices hnone : tagLen1 (c :: stripTags cs) = none by simp [hnone]
    by_cases hc : c = '<'
    · subst hc
      cases cs with
      | nil => simp [stripTags, tagLen1]
      | cons d ds =>
        by_cases hd : d = '>'
        · have hstep : stripTags (d :: ds) = d :: stripTags ds := by
            rw [stripTags, tagLen1_head_none _ (by rw [hd]; decide)]
          rw [hstep, hd]
          simp [tagLen1]
        · rw [tagLen1, if_pos rfl, if_neg hd] at hk
          have hscan : tagScan (d :: ds) = none := by
            cases hsc : tagScan (d :: ds) with
            | none => rfl
            | some k0 => rw [hsc] at hk; simp at hk
          have hnogt : ∀ e ∈ d :: ds, e ≠ '>' := tagScan_none _ hscan
          have hsub := stripTags_sublist (d :: ds)
          have hnogt2 : ∀ e ∈ stripTags (d :: ds), e ≠ '>' :=
            fun e he => hnogt e (hsub.subset he)
          cases hout : stripTags (d :: ds) with
          | nil => simp [tagLen1]
          | cons e es =>
            have he : e ≠ '>' := hnogt2 e (by rw [hout]; simp)
            have hscan2 : tagScan (e :: es) = none :=
              tagScan_none_of _ (fun f hf => hnogt2 f (by rw [hout]; exact hf))
            rw [tagLen1, if_pos rfl, if_neg he, hscan2]
            rfl
    · exact tagLen1_head_none _ hc

theorem hasTag_trimChars {x : List Char} (h : hasTag x = false) :
    hasTag (trimChars x) = false := by
  cases htrim : hasTag (trimChars x) with
  | false => rfl
  | true => rw [hasTag_within (trimChars_within x) htrim] at h; exact absurd h (by simp)

/-- Claim C4, counterexample: when the extractor response contains the
non-allowlisted tag <script>, the DOCX (Office-HTML) payload embeds it
verbatim - the DOCX encoder performs no stripping at all, unlike the MD and
TXT encoders. -/
theorem C4_docx_unstripped_cx :
    "<script>".data <:+: docxEncodeL "<script>alert(1)</script>".data
    ∧ hasTag (docxEncodeL "<script>alert(1)</script>".data) = true := by
  constructor
  · refine ⟨'\uFEFF' :: docxPre.data, "alert(1)</script>".data ++ docxPost.data, ?_⟩
    simp only [docxEncodeL, List.cons_append, List.append_assoc, List.cons.injEq, true_and]
    simp
  · show hasTag ('\uFEFF' :: (docxPre.data ++ "<script>alert(1)</script>".data ++ docxPost.data))
      = true
    rw [hasTag]
    have h1 : hasTag "<script>alert(1)</script>".data = true := by decide
    rw [List.append_assoc]
    rw [hasTag_append_right docxPre.data _ (hasTag_append_left _ docxPost.data h1)]
    simp

/-- Claim C4 (amended): the MD and TXT encoders end with the catch-all strip
of every complete tag, so for every extractor response - allowlisted or not -
their payloads contain no complete tag at all; the DOCX encoder, by
contrast, performs no stripping and embeds the response verbatim in its
Office-HTML envelope (see the counterexample). -/
theorem C4_md_txt_strip_all (s : List Char) :
    hasTag (mdEncodeL s) = false ∧ hasTag (txtEncodeL s) = false := by
  constructor
  · simp only [mdEncodeL]
    exact hasTag_stripTags _
  · simp only [txtEncodeL]
    exact hasTag_trimChars (hasTag_stripTags _)
